import Mathlib

/-!
Verification development for the `MarkovChain` estimator of cellrank
(`src/cellrank/tools/_estimators/_markov_chain.py`) and the plotting helper
(`src/cellrank/plotting/_cluster_fates.py`).

The numerical code is embedded shallowly over `ℚ` (exact arithmetic standing
for the float computations of numpy/scipy).  A state of the Markov chain is an
index `i : Fin n`; the categorical series `approx_rcs` (after `_process_series`)
is embedded as `labels : Fin n → Option (Fin L)`, where `none` is the `NaN`
(transient) label and the `L` categories are the classes, in category order.
-/

namespace CellRank

/-! ### Transient / recurrent index sets

`compute_lin_probs` builds `mask` by or-ing `approx_rcs_ == cat` over all
categories, so `mask i` holds iff `labels i` is non-null;
`rec_indices, trans_indices = np.where(mask)[0], np.where(~mask)[0]`.
We embed the two index sets as subtypes of `Fin n`; the rows/columns of the
numpy arrays `q`, `s`, `abs_states` correspond to these subtypes along the
(order-preserving) bijection with the index lists of `np.where`. -/

def TransientIx {n L : ℕ} (labels : Fin n → Option (Fin L)) : Type :=
  {i : Fin n // labels i = none}

def RecurrentIx {n L : ℕ} (labels : Fin n → Option (Fin L)) : Type :=
  {i : Fin n // (labels i).isSome = true}

instance {n L : ℕ} (labels : Fin n → Option (Fin L)) : Fintype (TransientIx labels) :=
  Subtype.fintype _

instance {n L : ℕ} (labels : Fin n → Option (Fin L)) : DecidableEq (TransientIx labels) :=
  Subtype.instDecidableEq

instance {n L : ℕ} (labels : Fin n → Option (Fin L)) : Fintype (RecurrentIx labels) :=
  Subtype.fintype _

instance {n L : ℕ} (labels : Fin n → Option (Fin L)) : DecidableEq (RecurrentIx labels) :=
  Subtype.instDecidableEq

/-- Embedding of `q = t[trans_indices, :][:, trans_indices]` (transient-to-transient
restriction of the transition matrix). -/
def qMat {n L : ℕ} (T : Matrix (Fin n) (Fin n) ℚ) (labels : Fin n → Option (Fin L)) :
    Matrix (TransientIx labels) (TransientIx labels) ℚ :=
  fun a b => T a.1 b.1

/-- Embedding of `s = t[trans_indices, :][:, rec_indices]` (transient-to-recurrent
restriction of the transition matrix). -/
def sMat {n L : ℕ} (T : Matrix (Fin n) (Fin n) ℚ) (labels : Fin n → Option (Fin L)) :
    Matrix (TransientIx labels) (RecurrentIx labels) ℚ :=
  fun a b => T a.1 b.1

/-- Embedding of `scipy.linalg.solve(A, b)`: the exact solution `A⁻¹ * b` of the linear
system when `A` is nonsingular; `scipy` raises `LinAlgError` on a singular
matrix, embedded as `none`.  The inverse is spelled with the adjugate so the
definition is executable. -/
def solve {m k : Type} [Fintype m] [DecidableEq m] [Fintype k]
    (A : Matrix m m ℚ) (b : Matrix m k ℚ) : Option (Matrix m k ℚ) :=
  if A.det = 0 then none else some ((A.det⁻¹ • A.adjugate) * b)

/-- The class of a recurrent state (the value of the non-null label). -/
def class_of {n L : ℕ} (labels : Fin n → Option (Fin L)) (b : RecurrentIx labels) : Fin L :=
  (labels b.1).get b.2

/-- Column aggregation to class level:
`_abs_classes[:, col] = np.sum(abs_states[:, rec_classes_red[key]], axis=1)`,
where `rec_classes_red[key]` collects the recurrent positions whose label is
the class `key`. -/
def abs_classes_agg {n L : ℕ} (labels : Fin n → Option (Fin L))
    (B : Matrix (TransientIx labels) (RecurrentIx labels) ℚ) :
    Matrix (TransientIx labels) (Fin L) ℚ :=
  fun a c => ∑ b ∈ Finset.univ.filter (fun b => class_of labels b = c), B a b

/-- Embedding of `len(rec_classes_red[key])`: the number of recurrent states in class `c`. -/
def class_size {n L : ℕ} (labels : Fin n → Option (Fin L)) (c : Fin L) : ℕ :=
  (Finset.univ.filter (fun b : RecurrentIx labels => class_of labels b = c)).card

/-- Embedding of `if norm_by_frequ: _abs_classes /= [len(value) for value in rec_classes_red.values()]`
(divide the column of each class by the member count of that class). -/
def norm_by_frequ_step {n L : ℕ} (labels : Fin n → Option (Fin L)) (nbf : Bool)
    (X : Matrix (TransientIx labels) (Fin L) ℚ) : Matrix (TransientIx labels) (Fin L) ℚ :=
  if nbf then (fun a c => X a c / (class_size labels c : ℚ)) else X

/-- Modelled from the spec: `_normalize` lives in `cellrank.tools._utils`
(not under `src/`); per the spec it is "a final row-wise renormalization so
each row sums to 1", i.e. each row is divided by its row sum. -/
def normalize {L : ℕ} {m : Type} (X : Matrix m (Fin L) ℚ) :
    Matrix m (Fin L) ℚ :=
  fun a c => X a c / ∑ c', X a c'

/-- The final assembly loop of `compute_lin_probs`:

    abs_classes = np.zeros((self._n_states, len(rec_classes_red)))
    for col, cl_indices in enumerate(rec_classes_full.values()):
        abs_classes[trans_indices, col] = _abs_classes[:, col]
        abs_classes[cl_indices, col] = 1

Net effect per entry `(i, c)` (the two row sets are written in this order, so
the `cl_indices` write wins; `cl_indices` for column `c` is
`np.where(approx_rcs_ == c)`): a state labelled `c` gets `1`, a transient
state gets the solved/normalized value, everything else keeps the zero fill. -/
def assemble_abs_classes {n L : ℕ} (labels : Fin n → Option (Fin L))
    (A : Matrix (TransientIx labels) (Fin L) ℚ) : Matrix (Fin n) (Fin L) ℚ :=
  fun i c =>
    if labels i = some c then 1
    else if h : labels i = none then A ⟨i, h⟩ c
    else 0

/-- Embedding of `compute_lin_probs(keys, check_irred, norm_by_frequ)` (markov_chain.py,
lines 595-726), restricted to its numerical core: the `keys` processing of
`_process_series` is folded into the input `labels`, and the `Lineage`
names/colors bookkeeping is dropped.  Fails (scipy `LinAlgError`) iff
`eye - q` is singular. -/
def compute_lin_probs {n L : ℕ} (T : Matrix (Fin n) (Fin n) ℚ)
    (labels : Fin n → Option (Fin L)) (nbf : Bool) : Option (Matrix (Fin n) (Fin L) ℚ) :=
  (solve (1 - qMat T labels) (sMat T labels)).map fun B =>
    assemble_abs_classes labels (normalize (norm_by_frequ_step labels nbf (abs_classes_agg labels B)))

/-- Embedding of `if len(keys) == 1: logg.warning("There is only one recurrent class, ...")`:
the warning fires exactly when the processed labeling has a single category. -/
def single_class_warning (L : ℕ) : Bool :=
  L == 1

/-- Embedding of `scipy.stats.entropy(pk)`: Shannon entropy of `pk` after normalizing it to
sum to one, with the convention `0 * log 0 = 0` (scipy uses `xlogy`; in
Mathlib `Real.log 0 = 0`, so the plain product has the same value). -/
noncomputable def scipy_entropy {L : ℕ} (p : Fin L → ℚ) : ℝ :=
  -∑ c, ((p c / ∑ c', p c' : ℚ) : ℝ) * Real.log ((p c / ∑ c', p c' : ℚ) : ℝ)

/-- Embedding of `self._dp = entropy(abs_classes.T)`: the differentiation potential is the
per-row entropy of the lineage-probability matrix. -/
noncomputable def diff_potential {n L : ℕ} (M : Matrix (Fin n) (Fin L) ℚ) : Fin n → ℝ :=
  fun i => scipy_entropy (fun c => M i c)

/-! ### Vector extrema (`np.min` / `np.max` along an axis) -/

/-- Embedding of `np.max` of a vector (the `else` branch is dead for nonempty input;
`numpy` raises on an empty axis). -/
def vec_max {m : ℕ} (f : Fin m → ℚ) : ℚ :=
  if h : (Finset.univ : Finset (Fin m)).Nonempty then Finset.univ.sup' h f else 0

/-- Embedding of `np.min` of a vector. -/
def vec_min {m : ℕ} (f : Fin m → ℚ) : ℚ :=
  if h : (Finset.univ : Finset (Fin m)).Nonempty then Finset.univ.inf' h f else 0

/-! ### The per-state recurrence score -/

/-- Embedding of `_compute_approx_rcs_prob(use)` (markov_chain.py, lines 945-974), given
the truncated left eigenvectors (real parts) `V` and eigenvalue real parts
`evals`:

    V_pos = np.abs(V)
    V_shifted = V_pos - np.min(V_pos, axis=0)
    V_scaled = V_shifted / np.max(V_shifted, axis=0)
    assert np.allclose(np.min(V_scaled, axis=0), 0), ...
    assert np.allclose(np.max(V_scaled, axis=0), 1), ...
    V_eigs = V_scaled / evals
    c_ = np.sum(V_eigs, axis=1)
    c = c_ / np.max(c_)

The two asserts are modelled exactly (exact arithmetic): a constant column of
`V_pos` makes the column of `V_shifted` zero and the division `0 / 0` produce `NaN`
in numpy (here `0`), so `np.allclose(np.max(V_scaled, axis=0), 1)` fails and
the function raises `AssertionError`, embedded as `none`.  (Division of a
positive column by a zero eigenvalue — numpy `inf` — is outside this model and
excluded by hypotheses where it matters.) -/
def rcs_V_shifted {n k : ℕ} (V : Matrix (Fin n) (Fin k) ℚ) : Matrix (Fin n) (Fin k) ℚ :=
  fun i c => |V i c| - vec_min (fun i' => |V i' c|)

def rcs_V_scaled {n k : ℕ} (V : Matrix (Fin n) (Fin k) ℚ) : Matrix (Fin n) (Fin k) ℚ :=
  fun i c => rcs_V_shifted V i c / vec_max (fun i' => rcs_V_shifted V i' c)

/-- Embedding of `c_ = np.sum(V_eigs, axis=1)` where `V_eigs = V_scaled / evals`. -/
def rcs_csum {n k : ℕ} (V : Matrix (Fin n) (Fin k) ℚ) (evals : Fin k → ℚ) : Fin n → ℚ :=
  fun i => ∑ c, rcs_V_scaled V i c / evals c

def compute_approx_rcs_prob {n k : ℕ} (V : Matrix (Fin n) (Fin k) ℚ)
    (evals : Fin k → ℚ) : Option (Fin n → ℚ) :=
  if (∀ c, vec_min (fun i => rcs_V_scaled V i c) = 0) ∧
      (∀ c, vec_max (fun i => rcs_V_scaled V i c) = 1)
  then some (fun i => rcs_csum V evals i / vec_max (rcs_csum V evals))
  else none

/-! ### The percentile filter of `compute_approx_rcs` -/

/-- Embedding of `np.percentile(xs, p)` with the default linear interpolation:
`h = p/100 * (len-1)`; the result is `sorted[⌊h⌋] + frac(h) * (sorted[⌊h⌋+1] - sorted[⌊h⌋])`.
`np.sort` returns the (unique) sorted permutation of the data;
`List.insertionSort` computes exactly that permutation. -/
def np_sorted (xs : List ℚ) : List ℚ :=
  List.insertionSort (· ≤ ·) xs

/-- The fractional index `h = p/100 * (len-1)` of `np.percentile`. -/
def np_ph (xs : List ℚ) (p : ℚ) : ℚ :=
  p * ((xs.length : ℚ) - 1) / 100

def np_percentile (xs : List ℚ) (p : ℚ) : ℚ :=
  (np_sorted xs).getD (⌊np_ph xs p⌋).toNat 0 +
    (np_ph xs p - ⌊np_ph xs p⌋) *
      ((np_sorted xs).getD ((⌊np_ph xs p⌋).toNat + 1)
          ((np_sorted xs).getD (⌊np_ph xs p⌋).toNat 0) -
        (np_sorted xs).getD (⌊np_ph xs p⌋).toNat 0)

/-- Embedding of `cutoffs = np.percentile(np.abs(V_l), percentile, axis=0)` (markov_chain.py,
line 498): the per-column percentile cutoff of the absolute eigenvector
values. -/
def percentile_cutoffs {n k : ℕ} (V : Matrix (Fin n) (Fin k) ℚ) (p : ℚ) : Fin k → ℚ :=
  fun c => np_percentile ((List.finRange n).map fun i => |V i c|) p

/-- Embedding of `ixs = np.sum(np.abs(V_l) < cutoffs, axis=1) < V_l.shape[1]` (markov_chain.py,
line 499): state `i` is kept iff the number of columns in which its absolute
value is strictly below the cutoff is less than the number of columns. -/
def keep_mask {n k : ℕ} (V : Matrix (Fin n) (Fin k) ℚ) (p : ℚ) : Fin n → Bool :=
  fun i => decide
    ((Finset.univ.filter fun c => |V i c| < percentile_cutoffs V p c).card < k)

/-! ### The estimator session as a state machine

`MarkovChain` holds its derived results in mutable attributes.  The fields
relevant to the claims are embedded below; an operation is a function from
state to `(raised error?, new state)`, executed in the exact order of the
python statements, so that mutations committed before a `raise` are visible
in the returned state. -/

/-- Errors raised by the estimator operations (python `RuntimeError`,
`ValueError`, `AssertionError` and scipy `LinAlgError`). -/
inductive MCError : Type
  | precondEig
  | precondApproxRcs
  | precondLinProbs
  | invalidMethod
  | invalidUse
  | invalidPercentile
  | assertionError
  | linAlgError
  deriving DecidableEq

/-- The messages quoted to the caller (markov_chain.py; quote marks of the
originals around method and option names are dropped). -/
def error_message : MCError → String
  | .precondEig => "Compute eigendecomposition first as `.compute_eig()`"
  | .precondApproxRcs => "Compute approximate recurrent classes first as `.compute_approx_rcs()`"
  | .precondLinProbs => "Compute lineage probabilities first as `.compute_lin_probs()`."
  | .invalidMethod => "Invalid method. Valid options are kmeans, louvain."
  | .invalidUse => "Maximum specified eigenvector is larger than the number of computed eigenvectors."
  | .invalidPercentile => "Percentile must be in interval `[0, 100]`."
  | .assertionError => "Upper limit is not one."
  | .linAlgError => "singular matrix"

/-- The stored eigendecomposition `self._eig`: `k` computed eigenvalues (real
parts) `D`, left/right eigenvectors (real parts) and the eigengap index. -/
structure EigData (n : ℕ) where
  k : ℕ
  D : Fin k → ℚ
  V_l : Matrix (Fin n) (Fin k) ℚ
  V_r : Matrix (Fin n) (Fin k) ℚ
  eigengap : ℕ

/-- Session state touched by `compute_partition` / `compute_approx_rcs`:
`None` marks a field never computed. -/
structure MCState (n : ℕ) where
  is_irreducible : Option Bool
  rec_classes : Option (List (List (Fin n)))
  trans_classes : Option (List (List (Fin n)))
  eig : Option (EigData n)
  approx_rcs : Option (Fin n → Option ℕ)
  approx_rcs_probs : Option (Fin n → ℚ)

/-- Session state touched by `compute_lin_probs` / `plot_lin_probs`; the
stored `Lineage` is `(rows, cols, entries)`.  Here the classes of the
labeling are typed (`Fin L`). -/
structure LinState (n L : ℕ) where
  approx_rcs : Option (Fin n → Option (Fin L))
  lin_probs : Option (ℕ × ℕ × (ℕ → ℕ → ℚ))
  dp : Option (Fin n → ℝ)

/-- Embedding of `compute_partition` (markov_chain.py, lines 196-236).  The SCC analysis
`partition(self._T)` lives in `cellrank.tools._utils` (not under `src/`); the
claim quantifies over its result, taken here as the argument `pr =
(rec_classes, trans_classes)`.  The `_make_cat` categorical conversion and
the `adata.obs` writes are dropped. -/
def compute_partition {n : ℕ} (pr : List (List (Fin n)) × List (List (Fin n)))
    (st : MCState n) : MCState n :=
  if pr.1.length = 1 ∧ pr.2.length = 0 then
    {st with is_irreducible := some true}
  else
    { st with
      is_irreducible := some false
      rec_classes := some pr.1
      trans_classes := some pr.2 }

/-- Embedding of `use = self._eig["eigengap"] + 1` when the caller passes `None`, else the
requested count of leading eigenvectors (`use = list(range(use))`). -/
def rcs_use {n : ℕ} (e : EigData n) (use0 : Option ℕ) : ℕ :=
  use0.getD (e.eigengap + 1)

/-- Embedding of `V_l = self._eig["V_l"][:, use]` (the first `use` columns; complex columns
are already reduced to real parts in `EigData`). -/
def rcs_V_use {n : ℕ} (e : EigData n) (use0 : Option ℕ)
    (h : rcs_use e use0 ≤ e.k) : Matrix (Fin n) (Fin (rcs_use e use0)) ℚ :=
  fun i c => e.V_l i ⟨c.1, lt_of_lt_of_le c.2 h⟩

/-- The corresponding truncation of the eigenvalues. -/
def rcs_D_use {n : ℕ} (e : EigData n) (use0 : Option ℕ)
    (h : rcs_use e use0 ≤ e.k) : Fin (rcs_use e use0) → ℚ :=
  fun c => e.D ⟨c.1, lt_of_lt_of_le c.2 h⟩

/-- Embedding of `compute_approx_rcs(use, percentile, method, ...)` (markov_chain.py,
lines 367-555), at the defaults `basis=None`, `scale=False`,
`n_matches_min=0`.  `_cluster_X` (cellrank.tools._utils, not under `src/`) is
the pluggable clustering capability of the spec, modelled as an abstract
label assignment `cluster`; `set_approx_rcs` naming/colors are dropped.  The
statement order of the source is kept: the recurrence probabilities are
committed (lines 477-479) before the percentile validation (line 494). -/
def compute_approx_rcs {n : ℕ} (method : String) (use0 : Option ℕ)
    (percentile : Option ℚ) (cluster : Fin n → ℕ) (st : MCState n) :
    Option MCError × MCState n :=
  match st.eig with
  | none => (some .precondEig, st)
  | some e =>
    if ¬ (method = "kmeans" ∨ method = "louvain") then (some .invalidMethod, st)
    else if h : 0 < rcs_use e use0 ∧ rcs_use e use0 ≤ e.k then
      match compute_approx_rcs_prob (rcs_V_use e use0 h.2) (rcs_D_use e use0 h.2) with
      | none => (some .assertionError, st)
      | some probs =>
        match percentile with
        | some p =>
          if p < 0 ∨ 100 < p then
            (some .invalidPercentile, {st with approx_rcs_probs := some probs})
          else
            (none,
              { st with
                approx_rcs_probs := some probs
                approx_rcs := some (fun i =>
                  if keep_mask (rcs_V_use e use0 h.2) p i then some (cluster i) else none) })
        | none =>
          (none,
            { st with
              approx_rcs_probs := some probs
              approx_rcs := some (fun i => some (cluster i)) })
    else (some .invalidUse, st)

/-- The placeholder `Lineage(np.empty((1, len(colors_))), ...)` written to
`self._lin_probs` before the solve (markov_chain.py, lines 650-656);
`np.empty` is uninitialized memory, so only the `1 × L` shape is meaningful
(entries modelled as `0`). -/
def lin_probs_placeholder (L : ℕ) : ℕ × ℕ × (ℕ → ℕ → ℚ) :=
  (1, L, fun _ _ => 0)

/-- The `n × L` matrix as stored in the session (`self._lin_probs`). -/
def stored_lineage {n L : ℕ} (M : Matrix (Fin n) (Fin L) ℚ) : ℕ × ℕ × (ℕ → ℕ → ℚ) :=
  (n, L, fun i c => if h : i < n ∧ c < L then M ⟨i, h.1⟩ ⟨c, h.2⟩ else 0)

/-- Embedding of `compute_lin_probs` as a session-state transition (markov_chain.py, lines
595-726): precondition check, then the placeholder overwrite of
`self._lin_probs` (line 652), then the numerical core; on solve failure the
placeholder is left behind. -/
noncomputable def compute_lin_probs_step {n L : ℕ} (T : Matrix (Fin n) (Fin n) ℚ)
    (nbf : Bool) (st : LinState n L) : Option MCError × LinState n L :=
  match st.approx_rcs with
  | none => (some .precondApproxRcs, st)
  | some labels =>
    match compute_lin_probs T labels nbf with
    | none => (some .linAlgError, {st with lin_probs := some (lin_probs_placeholder L)})
    | some M =>
      (none,
        { st with
          lin_probs := some (stored_lineage M)
          dp := some (diff_potential M) })

/-- The color-rescaling loop of `plot_lin_probs` (markov_chain.py, lines
783-788).  With `lineages=None`, `A = self._lin_probs.X` aliases the stored
array, so `col[~mask] = max_not_one` writes through: in every column holding
at least one value different from `1`, each entry equal to `1` is replaced by
the maximum value different from `1` in that column. -/
def plot_scale_column (rows : ℕ) (f : ℕ → ℕ → ℚ) : ℕ → ℕ → ℚ :=
  fun i c =>
    if h : f i c = 1 ∧ ((Finset.range rows).filter fun i' => ¬ f i' c = 1).Nonempty then
      ((Finset.range rows).filter fun i' => ¬ f i' c = 1).sup' h.2 fun i' => f i' c
    else f i c

/-- Embedding of `plot_lin_probs(lineages=None, mode="embedding")` as a session-state
transition (markov_chain.py, lines 728-829): precondition check, then the
in-place rescaling of the aliased stored matrix; the actual rendering has no
further session effect. -/
def plot_lin_probs_step {n L : ℕ} (st : LinState n L) : Option MCError × LinState n L :=
  match st.lin_probs with
  | none => (some .precondLinProbs, st)
  | some rcf => (none, {st with lin_probs := some (rcf.1, rcf.2.1, plot_scale_column rcf.1 rcf.2.2)})

/-! ### Example data -/

/-- Two states, both labelled (classes `0` and `1`), identity transition
matrix; there are no transient states. -/
def exT2 : Matrix (Fin 2) (Fin 2) ℚ :=
  !![1, 0; 0, 1]

def exLabels2 : Fin 2 → Option (Fin 2) :=
  ![some 0, some 1]

instance : IsEmpty (TransientIx exLabels2) := by
  constructor
  rintro ⟨i, hi⟩
  fin_cases i <;> simp [exLabels2] at hi

/-- Two states, state `0` labelled with the only class, state `1` transient;
with the identity transition matrix the transient restriction `q = [[1]]`
makes `eye - q` singular, so `scipy.linalg.solve` raises `LinAlgError`. -/
def exLabels1 : Fin 2 → Option (Fin 1) :=
  ![some 0, none]

instance : Unique (TransientIx exLabels1) where
  default := ⟨1, rfl⟩
  uniq := by
    rintro ⟨i, hi⟩
    fin_cases i
    · simp [exLabels1] at hi
    · rfl

/-- Two states, both labelled with the single class `0`. -/
def exLabelsAll1 : Fin 2 → Option (Fin 1) :=
  ![some 0, some 0]

/-- A single nonconstant eigenvector column over two states. -/
def exV01 : Matrix (Fin 2) (Fin 1) ℚ :=
  !![0; 1]

/-- A stored eigendecomposition with `k = 1`, eigenvalue `1`, eigenvectors
`exV01` and eigengap index `0`. -/
def exEig : EigData 2 :=
  ⟨1, fun _ => 1, exV01, exV01, 0⟩

/-- A session that has computed only the eigendecomposition. -/
def exStRcs : MCState 2 :=
  ⟨none, none, none, some exEig, none, none⟩

/-- A fresh session (nothing computed). -/
def exStRcsNoEig : MCState 2 :=
  ⟨none, none, none, none, none, none⟩

/-- A fresh lineage-side session (nothing computed). -/
def exStLinNoRcs : LinState 2 1 :=
  ⟨none, none, none⟩

/-- A lineage-side session whose labeling (`exLabels1`) makes the solve fail
on the identity transition matrix. -/
def exStLinFail : LinState 2 1 :=
  ⟨some exLabels1, none, none⟩

/-- The entries of a stored single-column lineage matrix: state 0 has
probability `1`, state 1 has probability `2` (any value different from `1`
triggers the rescale; `2` keeps the example division-free). -/
def exLinEntries : ℕ → ℕ → ℚ :=
  fun i c => if i = 0 ∧ c = 0 then 1 else if i = 1 ∧ c = 0 then 2 else 0

/-- A lineage-side session holding a computed single-column matrix. -/
def exStLin : LinState 2 1 :=
  ⟨some (fun _ => some 0), some (2, 1, exLinEntries), none⟩

/-- An irreducible partition result over one state. -/
def exPartIrr : List (List (Fin 1)) × List (List (Fin 1)) :=
  ([[0]], [])

/-- A fresh one-state session for the partition step. -/
def exStPart : MCState 1 :=
  ⟨none, none, none, none, none, none⟩

instance : IsEmpty (TransientIx exLabelsAll1) := by
  constructor
  rintro ⟨i, hi⟩
  fin_cases i <;> simp [exLabelsAll1] at hi



end CellRank

namespace CellRank

/-! ### Helper lemmas about `solve` and `compute_lin_probs` -/

/-- Success of `compute_lin_probs` is exactly nonsingularity of `eye - q`. -/
theorem compute_lin_probs_isSome_iff {n L : ℕ} (T : Matrix (Fin n) (Fin n) ℚ)
    (labels : Fin n → Option (Fin L)) (nbf : Bool) :
    (compute_lin_probs T labels nbf).isSome = true ↔
      ((1 : Matrix (TransientIx labels) (TransientIx labels) ℚ) - qMat T labels).det ≠ 0 := by
  unfold compute_lin_probs solve
  by_cases hd : ((1 : Matrix (TransientIx labels) (TransientIx labels) ℚ) - qMat T labels).det = 0
  · rw [if_pos hd]
    simp only [Option.map_none', Option.isSome_none]
    exact iff_of_false (by simp) (not_not_intro hd)
  · rw [if_neg hd]
    simp only [Option.map_some', Option.isSome_some]
    exact iff_of_true trivial hd

/-- On success, the result of `compute_lin_probs` is the assembled matrix built
from the solved system. -/
theorem compute_lin_probs_get_eq {n L : ℕ} (T : Matrix (Fin n) (Fin n) ℚ)
    (labels : Fin n → Option (Fin L)) (nbf : Bool)
    (h : (compute_lin_probs T labels nbf).isSome = true)
    {B : Matrix (TransientIx labels) (RecurrentIx labels) ℚ}
    (hB : solve (1 - qMat T labels) (sMat T labels) = some B) :
    (compute_lin_probs T labels nbf).get h =
      assemble_abs_classes labels
        (normalize (norm_by_frequ_step labels nbf (abs_classes_agg labels B))) := by
  have : compute_lin_probs T labels nbf =
      some (assemble_abs_classes labels
        (normalize (norm_by_frequ_step labels nbf (abs_classes_agg labels B)))) := by
    unfold compute_lin_probs
    rw [hB, Option.map_some']
  simp [this]

/-- The matrix returned by `solve A b` satisfies the linear system `A * X = b`. -/
theorem solve_spec {m k : Type} [Fintype m] [DecidableEq m] [Fintype k]
    {A : Matrix m m ℚ} {b X : Matrix m k ℚ} (h : solve A b = some X) :
    A * X = b := by
  unfold solve at h
  by_cases hd : A.det = 0
  · rw [if_pos hd] at h
    exact absurd h (by simp)
  · rw [if_neg hd] at h
    have hX : X = (A.det⁻¹ • A.adjugate) * b := (Option.some.inj h).symm
    rw [hX, ← Matrix.mul_assoc, Matrix.mul_smul, Matrix.mul_adjugate, smul_smul,
      inv_mul_cancel₀ hd, one_smul, Matrix.one_mul]

/-- The function `solve` only succeeds on a nonsingular matrix. -/
theorem solve_det_ne_zero {m k : Type} [Fintype m] [DecidableEq m] [Fintype k]
    {A : Matrix m m ℚ} {b X : Matrix m k ℚ} (h : solve A b = some X) :
    A.det ≠ 0 := by
  unfold solve at h
  by_cases hd : A.det = 0
  · rw [if_pos hd] at h
    exact absurd h (by simp)
  · exact hd

/-- A nonsingular matrix has an injective `mulVec` (vectors in its kernel
vanish). -/
theorem mulVec_eq_of_det_ne_zero {m : Type} [Fintype m] [DecidableEq m]
    {A : Matrix m m ℚ} (hd : A.det ≠ 0) {v w : m → ℚ}
    (h : A.mulVec v = A.mulVec w) : v = w := by
  have h0 : A.mulVec (v - w) = 0 := by
    rw [Matrix.mulVec_sub, h, sub_self]
  have := Matrix.eq_zero_of_mulVec_eq_zero hd h0
  exact sub_eq_zero.mp this

/-! ### Nonnegativity of the absorption solution

The mathematical core behind C2: for a sub-stochastic nonnegative `Q` with
`eye - Q` nonsingular, the solution `x` of `x = Q x + s` with `s ≥ 0` is
nonnegative (an M-matrix has a nonnegative inverse).  Proved by analyzing the
set of states attaining a hypothetical negative minimum: such a set would be
closed under `Q`-transitions with full row sums, forcing a singular block. -/

/-- At a state attaining a negative minimum of the solution, the `Q`-row sums
to `1` and gives zero weight to non-minimal states. -/
theorem min_state_row {m : Type} [Fintype m]
    (Q : Matrix m m ℚ) (x s : m → ℚ)
    (hQ0 : ∀ i j, 0 ≤ Q i j) (hQrow : ∀ i, ∑ j, Q i j ≤ 1)
    (hs : ∀ i, 0 ≤ s i) (heq : ∀ i, x i = ∑ j, Q i j * x j + s i)
    (μ : ℚ) (hμ : ∀ j, μ ≤ x j) (hμneg : μ < 0)
    (i : m) (hi : x i = μ) :
    (∑ j, Q i j = 1) ∧ ∀ j, ¬ x j = μ → Q i j = 0 := by
  have hsum1 : (∑ j, Q i j) * μ ≤ ∑ j, Q i j * x j := by
    rw [Finset.sum_mul]
    exact Finset.sum_le_sum fun j _ => mul_le_mul_of_nonneg_left (hμ j) (hQ0 i j)
  have h2 : μ ≤ (∑ j, Q i j) * μ := by
    have := mul_le_mul_of_nonpos_right (hQrow i) (le_of_lt hμneg)
    simpa using this
  have h3 : μ = ∑ j, Q i j * x j + s i := by rw [← hi]; exact heq i
  have hs0 : s i = 0 := by
    have : μ + s i ≤ ∑ j, Q i j * x j + s i :=
      add_le_add_right (le_trans h2 hsum1) _
    rw [← h3] at this
    have hle : s i ≤ 0 := by linarith
    exact le_antisymm hle (hs i)
  have hQx : ∑ j, Q i j * x j = μ := by
    rw [hs0, add_zero] at h3
    exact h3.symm
  have heq1 : (∑ j, Q i j) * μ = μ := le_antisymm (by rw [← hQx] at hsum1 ⊢; linarith) h2
  have hrow1 : ∑ j, Q i j = 1 := by
    have : (∑ j, Q i j) * μ = 1 * μ := by rw [heq1, one_mul]
    exact mul_right_cancel₀ (ne_of_lt hμneg) this
  refine ⟨hrow1, fun j hj => ?_⟩
  have hzero : ∑ j, Q i j * (x j - μ) = 0 := by
    have hexp : ∑ j, Q i j * (x j - μ) = (∑ j, Q i j * x j) - (∑ j, Q i j) * μ := by
      rw [Finset.sum_mul, ← Finset.sum_sub_distrib]
      congr 1
      funext j
      ring
    rw [hexp, hQx, heq1, sub_self]
  have hterm := (Finset.sum_eq_zero_iff_of_nonneg
    (fun j _ => mul_nonneg (hQ0 i j) (sub_nonneg.mpr (hμ j)))).mp hzero j (Finset.mem_univ j)
  rcases mul_eq_zero.mp hterm with h | h
  · exact h
  · exact absurd (by linarith [sub_eq_zero.mp h] : x j = μ) hj

/-- Nonnegativity of the solution of `x = Q x + s` for sub-stochastic
nonnegative `Q` with nonsingular `eye - Q` and nonnegative `s`. -/
theorem solution_nonneg {m : Type} [Fintype m] [DecidableEq m]
    (Q : Matrix m m ℚ) (x s : m → ℚ)
    (hQ0 : ∀ i j, 0 ≤ Q i j) (hQrow : ∀ i, ∑ j, Q i j ≤ 1)
    (hs : ∀ i, 0 ≤ s i) (heq : ∀ i, x i = ∑ j, Q i j * x j + s i)
    (hdet : ((1 : Matrix m m ℚ) - Q).det ≠ 0) : ∀ i, 0 ≤ x i := by
  by_contra hcon
  push_neg at hcon
  obtain ⟨i0, hi0⟩ := hcon
  obtain ⟨imin, _, hmin⟩ :=
    Finset.exists_min_image Finset.univ x ⟨i0, Finset.mem_univ i0⟩
  set μ := x imin with hμdef
  have hμ : ∀ j, μ ≤ x j := fun j => hmin j (Finset.mem_univ j)
  have hμneg : μ < 0 := lt_of_le_of_lt (hμ i0) hi0
  have hkey : ∀ i, x i = μ → (∑ j, Q i j = 1 ∧ ∀ j, ¬ x j = μ → Q i j = 0) :=
    fun i hi => min_state_row Q x s hQ0 hQrow hs heq μ hμ hμneg i hi
  -- block decomposition along the set of minimizing states
  let p : m → Prop := fun i => x i = μ
  haveI : DecidablePred p := fun i => inferInstanceAs (Decidable (x i = μ))
  let e := Equiv.sumCompl p
  set N := ((1 : Matrix m m ℚ) - Q).submatrix e e with hN
  have hdet2 : N.det = ((1 : Matrix m m ℚ) - Q).det :=
    Matrix.det_submatrix_equiv_self e _
  have hentry : ∀ (a : {i // p i}) (b : {i // ¬ p i}), N (Sum.inl a) (Sum.inr b) = 0 := by
    rintro ⟨a, ha⟩ ⟨b, hb⟩
    have hab : a ≠ b := fun hcon => hb (hcon ▸ ha)
    have hQab : Q a b = 0 := (hkey a ha).2 b hb
    simp [hN, Matrix.submatrix_apply, e, Equiv.sumCompl_apply_inl,
      Equiv.sumCompl_apply_inr, Matrix.sub_apply, Matrix.one_apply, hab, hQab]
  have h12 : N.toBlocks₁₂ = 0 := by
    ext a b
    simpa [Matrix.toBlocks₁₂] using hentry a b
  have hones : N.toBlocks₁₁.mulVec (fun _ => (1 : ℚ)) = 0 := by
    funext a
    rcases a with ⟨a, ha⟩
    have hone : ∑ b : {i // p i}, (1 : Matrix m m ℚ) a b.1 = 1 := by
      rw [← Finset.sum_subtype (Finset.univ.filter p)
        (fun x => by simp [Finset.mem_filter]) (fun j => (1 : Matrix m m ℚ) a j)]
      rw [Finset.sum_filter]
      have : ∀ j, (if p j then (1 : Matrix m m ℚ) a j else 0) =
          if a = j then (if p j then 1 else 0) else 0 := by
        intro j
        by_cases haj : a = j
        · subst haj
          simp [Matrix.one_apply, ha]
        · simp [Matrix.one_apply, haj]
      rw [Finset.sum_congr rfl fun j _ => this j]
      rw [Finset.sum_ite_eq Finset.univ a (fun j => if p j then (1 : ℚ) else 0)]
      rw [if_pos (Finset.mem_univ a), if_pos ha]
    have hQsum : ∑ b : {i // p i}, Q a b.1 = 1 := by
      have hsplit := Finset.sum_filter_add_sum_filter_not Finset.univ p (fun j => Q a j)
      have hzero : ∑ j ∈ Finset.univ.filter (fun j => ¬ p j), Q a j = 0 :=
        Finset.sum_eq_zero fun j hj =>
          (hkey a ha).2 j (Finset.mem_filter.mp hj).2
      have hfull : ∑ j, Q a j = 1 := (hkey a ha).1
      have hfil : ∑ j ∈ Finset.univ.filter p, Q a j = 1 := by
        rw [← hfull, ← hsplit, hzero, add_zero]
      rw [← Finset.sum_subtype (Finset.univ.filter p)
        (fun x => by simp [Finset.mem_filter]) (fun j => Q a j)]
      exact hfil
    have : (∑ b : {i // p i}, ((1 : Matrix m m ℚ) a b.1 - Q a b.1)) = 0 := by
      rw [Finset.sum_sub_distrib, hone, hQsum, sub_self]
    simpa [Matrix.toBlocks₁₁, Matrix.mulVec, Matrix.dotProduct, hN,
      Matrix.submatrix_apply, e, Equiv.sumCompl_apply_inl, Matrix.sub_apply]
      using this
  haveI hnonempty : Nonempty {i // p i} := ⟨⟨imin, rfl⟩⟩
  have hvne : (fun _ : {i // p i} => (1 : ℚ)) ≠ 0 := by
    intro hcon
    have := congrFun hcon (Classical.arbitrary _)
    norm_num at this
  have hAdet : N.toBlocks₁₁.det = 0 :=
    Matrix.exists_mulVec_eq_zero_iff.mp ⟨fun _ => (1 : ℚ), hvne, hones⟩
  have hNdet : N.det = 0 := by
    have hb : N = Matrix.fromBlocks N.toBlocks₁₁ N.toBlocks₁₂ N.toBlocks₂₁ N.toBlocks₂₂ :=
      (Matrix.fromBlocks_toBlocks N).symm
    rw [hb, h12, Matrix.det_fromBlocks_zero₁₂, hAdet, zero_mul]
  rw [hdet2] at hNdet
  exact hdet hNdet

/-! ### Row structure of the solved system -/

/-- Splitting a sum over all states into its transient and recurrent parts. -/
theorem trans_rec_sum {n L : ℕ} (labels : Fin n → Option (Fin L)) (f : Fin n → ℚ) :
    (∑ a : TransientIx labels, f a.1) + (∑ b : RecurrentIx labels, f b.1) = ∑ k, f k := by
  have ht : ∑ a : TransientIx labels, f a.1 =
      ∑ k ∈ Finset.univ.filter (fun i => labels i = none), f k :=
    (Finset.sum_subtype _ (fun x => by simp [Finset.mem_filter]) f).symm
  have hr1 : ∑ b : RecurrentIx labels, f b.1 =
      ∑ k ∈ Finset.univ.filter (fun i => (labels i).isSome = true), f k :=
    (Finset.sum_subtype _ (fun x => by simp [Finset.mem_filter]) f).symm
  have hr2 : Finset.univ.filter (fun i => (labels i).isSome = true) =
      Finset.univ.filter (fun i => ¬ labels i = none) :=
    Finset.filter_congr fun x _ => by cases labels x <;> simp
  rw [ht, hr1, hr2]
  exact Finset.sum_filter_add_sum_filter_not Finset.univ _ f

/-- For a row-stochastic nonnegative transition matrix, the transient
restriction `q` is sub-stochastic. -/
theorem qMat_row_le_one {n L : ℕ} (T : Matrix (Fin n) (Fin n) ℚ)
    (labels : Fin n → Option (Fin L))
    (hT0 : ∀ i j, 0 ≤ T i j) (hT1 : ∀ i, ∑ j, T i j = 1) (a : TransientIx labels) :
    ∑ j : TransientIx labels, qMat T labels a j ≤ 1 := by
  have hsplit := trans_rec_sum labels (fun k => T a.1 k)
  have hrec : 0 ≤ ∑ b : RecurrentIx labels, T a.1 b.1 :=
    Finset.sum_nonneg fun b _ => hT0 a.1 b.1
  have := hT1 a.1
  unfold qMat
  linarith [hsplit, this]

/-- Entrywise form of a matrix identity `M * B = S`. -/
theorem mul_entry_eq {m k : Type} [Fintype m] [Fintype k]
    {M : Matrix m m ℚ} {B S : Matrix m k ℚ} (h : M * B = S)
    (a : m) (b : k) : ∑ j, M a j * B j b = S a b := by
  have hfun : (M * B) a = S a := congrFun h a
  have hent : (M * B) a b = S a b := congrFun hfun b
  rwa [Matrix.mul_apply] at hent

/-- Entrywise form of `(eye - q) * B = s`: every column of the solved system
satisfies `x = q x + s`. -/
theorem solved_entry_equation {n L : ℕ} (T : Matrix (Fin n) (Fin n) ℚ)
    (labels : Fin n → Option (Fin L))
    {B : Matrix (TransientIx labels) (RecurrentIx labels) ℚ}
    (hB : (1 - qMat T labels) * B = sMat T labels)
    (a : TransientIx labels) (b : RecurrentIx labels) :
    B a b = (∑ j, qMat T labels a j * B j b) + sMat T labels a b := by
  have hab := mul_entry_eq hB a b
  have hexp : ∀ j, (1 - qMat T labels) a j * B j b =
      (1 : Matrix (TransientIx labels) (TransientIx labels) ℚ) a j * B j b -
        qMat T labels a j * B j b := by
    intro j
    rw [Matrix.sub_apply]
    ring
  rw [Finset.sum_congr rfl fun j _ => hexp j, Finset.sum_sub_distrib] at hab
  have hone : ∑ j, (1 : Matrix (TransientIx labels) (TransientIx labels) ℚ) a j * B j b
      = B a b := by
    have : ∀ j, (1 : Matrix (TransientIx labels) (TransientIx labels) ℚ) a j * B j b =
        if a = j then B j b else 0 := by
      intro j
      rw [Matrix.one_apply]
      by_cases haj : a = j
      · rw [if_pos haj, if_pos haj, one_mul]
      · rw [if_neg haj, if_neg haj, zero_mul]
    rw [Finset.sum_congr rfl fun j _ => this j,
      Finset.sum_ite_eq Finset.univ a (fun j => B j b), if_pos (Finset.mem_univ a)]
  rw [hone] at hab
  linarith [hab]

/-- Every entry of the solved absorption system is nonnegative. -/
theorem solved_nonneg {n L : ℕ} (T : Matrix (Fin n) (Fin n) ℚ)
    (labels : Fin n → Option (Fin L))
    (hT0 : ∀ i j, 0 ≤ T i j) (hT1 : ∀ i, ∑ j, T i j = 1)
    {B : Matrix (TransientIx labels) (RecurrentIx labels) ℚ}
    (hsol : solve (1 - qMat T labels) (sMat T labels) = some B)
    (a : TransientIx labels) (b : RecurrentIx labels) : 0 ≤ B a b := by
  have hB := solve_spec hsol
  have hdet := solve_det_ne_zero hsol
  exact solution_nonneg (qMat T labels) (fun a => B a b) (fun a => sMat T labels a b)
    (fun i j => hT0 i.1 j.1) (qMat_row_le_one T labels hT0 hT1)
    (fun i => hT0 i.1 b.1) (fun i => solved_entry_equation T labels hB i b) hdet a

/-- One-row sums of the identity matrix. -/
theorem one_matrix_row_sum {m : Type} [Fintype m] [DecidableEq m] (a : m) :
    ∑ j, (1 : Matrix m m ℚ) a j = 1 := by
  have h : ∀ j, (1 : Matrix m m ℚ) a j = if a = j then (1 : ℚ) else 0 :=
    fun j => Matrix.one_apply
  rw [Finset.sum_congr rfl fun j _ => h j,
    Finset.sum_ite_eq Finset.univ a (fun _ => (1 : ℚ)), if_pos (Finset.mem_univ a)]

/-- Every row of the solved absorption system sums to one. -/
theorem solved_row_sum_one {n L : ℕ} (T : Matrix (Fin n) (Fin n) ℚ)
    (labels : Fin n → Option (Fin L))
    (hT1 : ∀ i, ∑ j, T i j = 1)
    {B : Matrix (TransientIx labels) (RecurrentIx labels) ℚ}
    (hsol : solve (1 - qMat T labels) (sMat T labels) = some B)
    (a : TransientIx labels) : ∑ b, B a b = 1 := by
  have hB := solve_spec hsol
  have hdet := solve_det_ne_zero hsol
  have hvec : (1 - qMat T labels).mulVec (fun a => ∑ b, B a b) =
      (1 - qMat T labels).mulVec (fun _ => (1 : ℚ)) := by
    funext a'
    have hlhs : (1 - qMat T labels).mulVec (fun a => ∑ b, B a b) a' =
        ∑ b, sMat T labels a' b := by
      simp only [Matrix.mulVec, Matrix.dotProduct]
      calc ∑ j, (1 - qMat T labels) a' j * (∑ b, B j b)
          = ∑ j, ∑ b, (1 - qMat T labels) a' j * B j b := by
            exact Finset.sum_congr rfl fun j _ => Finset.mul_sum _ _ _
        _ = ∑ b, ∑ j, (1 - qMat T labels) a' j * B j b := Finset.sum_comm
        _ = ∑ b, sMat T labels a' b :=
            Finset.sum_congr rfl fun b _ => mul_entry_eq hB a' b
    have hrhs : (1 - qMat T labels).mulVec (fun _ => (1 : ℚ)) a' =
        1 - ∑ j, qMat T labels a' j := by
      simp only [Matrix.mulVec, Matrix.dotProduct]
      have h : ∀ j, (1 - qMat T labels) a' j * (1 : ℚ) =
          (1 : Matrix (TransientIx labels) (TransientIx labels) ℚ) a' j -
            qMat T labels a' j := by
        intro j
        rw [Matrix.sub_apply]
        ring
      rw [Finset.sum_congr rfl fun j _ => h j, Finset.sum_sub_distrib,
        one_matrix_row_sum a']
    have hsum : ∑ b, sMat T labels a' b = 1 - ∑ j, qMat T labels a' j := by
      have hsplit := trans_rec_sum labels (fun k => T a'.1 k)
      have h1 := hT1 a'.1
      unfold sMat qMat
      linarith [hsplit, h1]
    rw [hlhs, hrhs, hsum]
  have hfun := mulVec_eq_of_det_ne_zero hdet hvec
  exact congrFun hfun a

/-- The class-level aggregation preserves row sums. -/
theorem agg_row_sum {n L : ℕ} (labels : Fin n → Option (Fin L))
    (B : Matrix (TransientIx labels) (RecurrentIx labels) ℚ) (a : TransientIx labels) :
    ∑ c, abs_classes_agg labels B a c = ∑ b, B a b := by
  unfold abs_classes_agg
  exact Finset.sum_fiberwise Finset.univ (class_of labels) (fun b => B a b)

/-- Every class named by the labeling has at least one member. -/
theorem class_size_pos {n L : ℕ} (labels : Fin n → Option (Fin L)) (c : Fin L)
    (hc : ∃ i, labels i = some c) : 0 < class_size labels c := by
  obtain ⟨i, hi⟩ := hc
  have hsome : (labels i).isSome = true := by rw [hi]; rfl
  apply Finset.card_pos.mpr
  refine ⟨⟨i, hsome⟩, ?_⟩
  rw [Finset.mem_filter]
  refine ⟨Finset.mem_univ _, ?_⟩
  unfold class_of
  simp [hi]

/-- Row of the assembled matrix at a labelled state: the one-hot vector. -/
theorem assemble_row_labeled {n L : ℕ} (labels : Fin n → Option (Fin L))
    (A : Matrix (TransientIx labels) (Fin L) ℚ) (i : Fin n) (c0 : Fin L)
    (hl : labels i = some c0) (c : Fin L) :
    assemble_abs_classes labels A i c = if c0 = c then 1 else 0 := by
  unfold assemble_abs_classes
  by_cases hcc : c0 = c
  · subst hcc
    rw [if_pos hl, if_pos rfl]
  · have h1 : ¬ labels i = some c := by
      rw [hl]
      intro hcon
      exact hcc (Option.some.inj hcon)
    have h2 : ¬ labels i = none := by rw [hl]; simp
    rw [if_neg h1, dif_neg h2, if_neg hcc]

/-- Row of the assembled matrix at a transient state: the solved row. -/
theorem assemble_row_transient {n L : ℕ} (labels : Fin n → Option (Fin L))
    (A : Matrix (TransientIx labels) (Fin L) ℚ) (i : Fin n)
    (hl : labels i = none) (c : Fin L) :
    assemble_abs_classes labels A i c = A ⟨i, hl⟩ c := by
  unfold assemble_abs_classes
  have h1 : ¬ labels i = some c := by rw [hl]; simp
  rw [if_neg h1, dif_pos hl]

/-! ### Claim C1 -/

/-- C1: after `compute_lin_probs` succeeds, every state carrying a non-null
class label `c` has a row of the resulting matrix equal to the one-hot vector
at column `c` (entry `1` at its own class, `0` at every other class). -/
theorem compute_lin_probs_one_hot {n L : ℕ} (T : Matrix (Fin n) (Fin n) ℚ)
    (labels : Fin n → Option (Fin L)) (nbf : Bool)
    (h : (compute_lin_probs T labels nbf).isSome = true)
    (i : Fin n) (c : Fin L) (hl : labels i = some c) (c' : Fin L) :
    ((compute_lin_probs T labels nbf).get h) i c' = if c = c' then 1 else 0 := by
  have hs : (solve (1 - qMat T labels) (sMat T labels)).isSome = true := by
    have := h
    unfold compute_lin_probs at this
    simpa using this
  rcases Option.isSome_iff_exists.mp hs with ⟨B, hB⟩
  rw [compute_lin_probs_get_eq T labels nbf h hB]
  unfold assemble_abs_classes
  by_cases hcc : c = c'
  · subst hcc
    simp [hl]
  · have h1 : ¬ labels i = some c' := by
      rw [hl]
      intro hcon
      exact hcc (Option.some.inj hcon)
    have h2 : ¬ labels i = none := by
      rw [hl]
      simp
    simp [h1, h2, hcc]

theorem exLabels2_isSome : (compute_lin_probs exT2 exLabels2 false).isSome = true := by
  rw [compute_lin_probs_isSome_iff]
  rw [Matrix.det_isEmpty]
  norm_num

theorem compute_lin_probs_one_hot_witness :
    ((compute_lin_probs exT2 exLabels2 false).get exLabels2_isSome) 0 1 =
      if (0 : Fin 2) = 1 then 1 else 0 :=
  compute_lin_probs_one_hot exT2 exLabels2 false exLabels2_isSome 0 0 (by decide) 1

/-! ### Row properties of the final matrix (shared by several claims) -/

/-- Rows of a successful `compute_lin_probs` result sum exactly to one and
have entries in `[0, 1]` (row-stochastic input, nonempty classes). -/
theorem lin_probs_row_props {n L : ℕ} (T : Matrix (Fin n) (Fin n) ℚ)
    (labels : Fin n → Option (Fin L)) (nbf : Bool)
    (hT0 : ∀ i j, 0 ≤ T i j) (hT1 : ∀ i, ∑ j, T i j = 1)
    (hcls : ∀ c : Fin L, ∃ i, labels i = some c)
    (h : (compute_lin_probs T labels nbf).isSome = true) (i : Fin n) :
    (∑ c, ((compute_lin_probs T labels nbf).get h) i c) = 1 ∧
      ∀ c, 0 ≤ ((compute_lin_probs T labels nbf).get h) i c ∧
        ((compute_lin_probs T labels nbf).get h) i c ≤ 1 := by
  have hs : (solve (1 - qMat T labels) (sMat T labels)).isSome = true := by
    have := h
    unfold compute_lin_probs at this
    simpa using this
  rcases Option.isSome_iff_exists.mp hs with ⟨B, hB⟩
  rw [compute_lin_probs_get_eq T labels nbf h hB]
  set X := abs_classes_agg labels B with hXdef
  set Y := norm_by_frequ_step labels nbf X with hYdef
  -- entry bounds and row sums, layer by layer
  have hXn : ∀ a c, 0 ≤ X a c := fun a c =>
    Finset.sum_nonneg fun b _ => solved_nonneg T labels hT0 hT1 hB a b
  have hXsum : ∀ a, ∑ c, X a c = 1 := fun a => by
    rw [hXdef, agg_row_sum labels B a]
    exact solved_row_sum_one T labels hT1 hB a
  have hYn : ∀ a c, 0 ≤ Y a c := by
    intro a c
    rw [hYdef]
    unfold norm_by_frequ_step
    by_cases hn : nbf
    · rw [if_pos hn]
      exact div_nonneg (hXn a c) (by positivity)
    · rw [if_neg hn]
      exact hXn a c
  have hYpos : ∀ a, 0 < ∑ c, Y a c := by
    intro a
    have hc0 : ∃ c0, 0 < X a c0 := by
      by_contra hcon
      push_neg at hcon
      have : ∑ c, X a c ≤ 0 := Finset.sum_nonpos fun c _ => hcon c
      rw [hXsum a] at this
      norm_num at this
    obtain ⟨c0, hc0⟩ := hc0
    have hterm : 0 < Y a c0 := by
      rw [hYdef]
      unfold norm_by_frequ_step
      by_cases hn : nbf
      · rw [if_pos hn]
        apply div_pos hc0
        exact_mod_cast class_size_pos labels c0 (hcls c0)
      · rw [if_neg hn]
        exact hc0
    exact Finset.sum_pos' (fun c _ => hYn a c) ⟨c0, Finset.mem_univ c0, hterm⟩
  have hZsum : ∀ a, ∑ c, normalize Y a c = 1 := by
    intro a
    unfold normalize
    rw [← Finset.sum_div]
    exact div_self (ne_of_gt (hYpos a))
  have hZn : ∀ a c, 0 ≤ normalize Y a c := by
    intro a c
    unfold normalize
    exact div_nonneg (hYn a c) (le_of_lt (hYpos a))
  have hZle : ∀ a c, normalize Y a c ≤ 1 := by
    intro a c
    unfold normalize
    rw [div_le_one (hYpos a)]
    exact Finset.single_le_sum (fun c _ => hYn a c) (Finset.mem_univ c)
  rcases hli : labels i with _ | c0
  · -- transient state: the normalized solved row
    constructor
    · rw [Finset.sum_congr rfl fun c _ => assemble_row_transient labels (normalize Y) i hli c]
      rw [hZsum ⟨i, hli⟩]
    · intro c
      rw [assemble_row_transient labels (normalize Y) i hli c]
      exact ⟨hZn _ c, hZle _ c⟩
  · -- labelled state: the one-hot row
    constructor
    · rw [Finset.sum_congr rfl fun c _ => assemble_row_labeled labels (normalize Y) i c0 hli c]
      rw [Finset.sum_ite_eq Finset.univ c0 (fun _ => (1 : ℚ)), if_pos (Finset.mem_univ c0)]
    · intro c
      rw [assemble_row_labeled labels (normalize Y) i c0 hli c]
      by_cases hcc : c0 = c
      · rw [if_pos hcc]
        norm_num
      · rw [if_neg hcc]
        norm_num

/-! ### Claim C2 -/

/-- C2: for every row-stochastic transition matrix and labeling (with each
class nonempty, as categories of a pandas series of observed labels are),
after `compute_lin_probs` succeeds every row of the resulting matrix sums to
`1` within a tolerance of `1e-6` (here: exactly, in exact arithmetic), and
every entry lies in `[0, 1]`. -/
theorem compute_lin_probs_row_stochastic {n L : ℕ} (T : Matrix (Fin n) (Fin n) ℚ)
    (labels : Fin n → Option (Fin L)) (nbf : Bool)
    (hT0 : ∀ i j, 0 ≤ T i j) (hT1 : ∀ i, ∑ j, T i j = 1)
    (hcls : ∀ c : Fin L, ∃ i, labels i = some c)
    (h : (compute_lin_probs T labels nbf).isSome = true) (i : Fin n) :
    |(∑ c, ((compute_lin_probs T labels nbf).get h) i c) - 1| ≤ 1 / 1000000 ∧
      ∀ c, 0 ≤ ((compute_lin_probs T labels nbf).get h) i c ∧
        ((compute_lin_probs T labels nbf).get h) i c ≤ 1 := by
  obtain ⟨hsum, hbounds⟩ := lin_probs_row_props T labels nbf hT0 hT1 hcls h i
  refine ⟨?_, hbounds⟩
  rw [hsum]
  norm_num

theorem compute_lin_probs_row_stochastic_witness :
    |(∑ c, ((compute_lin_probs exT2 exLabels2 false).get exLabels2_isSome) 0 c) - 1|
        ≤ 1 / 1000000 ∧
      ∀ c, 0 ≤ ((compute_lin_probs exT2 exLabels2 false).get exLabels2_isSome) 0 c ∧
        ((compute_lin_probs exT2 exLabels2 false).get exLabels2_isSome) 0 c ≤ 1 :=
  compute_lin_probs_row_stochastic exT2 exLabels2 false
    (by simp [exT2, Fin.forall_fin_two])
    (by simp [exT2, Fin.sum_univ_two, Fin.forall_fin_two])
    (by decide) exLabels2_isSome 0

/-! ### Claim C8 -/

/-- With the identity transition matrix and `exLabels1` (state `0` labelled,
state `1` transient with a self loop), `q = [[1]]`, so `eye - q = [[0]]` is
singular and `compute_lin_probs` fails with `LinAlgError`. -/
theorem compute_lin_probs_exLabels1_none :
    compute_lin_probs exT2 exLabels1 false = none := by
  have hdet : ((1 : Matrix (TransientIx exLabels1) (TransientIx exLabels1) ℚ) -
      qMat exT2 exLabels1).det = 0 := by
    rw [Matrix.det_unique, Matrix.sub_apply, Matrix.one_apply_eq]
    have : qMat exT2 exLabels1 default default = 1 := by
      show exT2 1 1 = 1
      norm_num [exT2]
    rw [this]
    norm_num
  unfold compute_lin_probs solve
  rw [if_pos hdet, Option.map_none']

/-- C8 counterexample: a labeling with exactly one recurrent class for which
`compute_lin_probs` raises (`scipy.linalg.solve` hits a singular `eye - q`):
state `0` labelled, state `1` transient with a self loop (`T` = identity), so
`q = [[1]]` and `eye - q = [[0]]`.  The claim asserts that with one class the
call succeeds; here it errors. -/
theorem compute_lin_probs_single_class_cex :
    (∀ c : Fin 1, ∃ i, exLabels1 i = some c) ∧
      compute_lin_probs exT2 exLabels1 false = none :=
  ⟨by decide, compute_lin_probs_exLabels1_none⟩

/-- C8 (amended): when the labeling contains exactly one recurrent class and
the linear solve succeeds (`eye - q` nonsingular; the unconditional success
stated by the original claim fails, see the counterexample), `compute_lin_probs`
emits the single-class warning rather than an error, every state has lineage
probability `1` in the single column, and the differentiation potential
vanishes. -/
theorem compute_lin_probs_single_class {n : ℕ} (T : Matrix (Fin n) (Fin n) ℚ)
    (labels : Fin n → Option (Fin 1)) (nbf : Bool)
    (hT0 : ∀ i j, 0 ≤ T i j) (hT1 : ∀ i, ∑ j, T i j = 1)
    (hcls : ∃ i, labels i = some 0)
    (h : (compute_lin_probs T labels nbf).isSome = true) (i : Fin n) :
    single_class_warning 1 = true ∧
      ((compute_lin_probs T labels nbf).get h) i 0 = 1 ∧
      diff_potential ((compute_lin_probs T labels nbf).get h) i = 0 := by
  have hcls' : ∀ c : Fin 1, ∃ i, labels i = some c := by
    intro c
    have hc : c = 0 := Subsingleton.elim c 0
    rw [hc]
    exact hcls
  obtain ⟨hsum, _⟩ := lin_probs_row_props T labels nbf hT0 hT1 hcls' h i
  have hone : ((compute_lin_probs T labels nbf).get h) i 0 = 1 := by
    rw [← hsum, Fin.sum_univ_one]
  refine ⟨rfl, hone, ?_⟩
  have hr : ((compute_lin_probs T labels nbf).get h) i 0 /
      (∑ c', ((compute_lin_probs T labels nbf).get h) i c') = 1 := by
    rw [Fin.sum_univ_one, hone]
    norm_num
  unfold diff_potential scipy_entropy
  rw [Fin.sum_univ_one, hr]
  norm_num

theorem compute_lin_probs_single_class_witness :
    single_class_warning 1 = true ∧
      ((compute_lin_probs exT2 exLabelsAll1 false).get
        (by rw [compute_lin_probs_isSome_iff, Matrix.det_isEmpty]; norm_num)) 0 0 = 1 ∧
      diff_potential ((compute_lin_probs exT2 exLabelsAll1 false).get
        (by rw [compute_lin_probs_isSome_iff, Matrix.det_isEmpty]; norm_num)) 0 = 0 :=
  compute_lin_probs_single_class exT2 exLabelsAll1 false
    (by simp [exT2, Fin.forall_fin_two])
    (by simp [exT2, Fin.sum_univ_two, Fin.forall_fin_two])
    (by decide)
    (by rw [compute_lin_probs_isSome_iff, Matrix.det_isEmpty]; norm_num) 0

/-! ### Extrema lemmas -/

theorem univ_fin_nonempty {m : ℕ} (hm : 0 < m) : (Finset.univ : Finset (Fin m)).Nonempty :=
  ⟨⟨0, hm⟩, Finset.mem_univ _⟩

theorem le_vec_max {m : ℕ} (hm : 0 < m) (f : Fin m → ℚ) (i : Fin m) : f i ≤ vec_max f := by
  unfold vec_max
  rw [dif_pos (univ_fin_nonempty hm)]
  exact Finset.le_sup' f (Finset.mem_univ i)

theorem vec_max_le {m : ℕ} (hm : 0 < m) (f : Fin m → ℚ) (a : ℚ) (h : ∀ i, f i ≤ a) :
    vec_max f ≤ a := by
  unfold vec_max
  rw [dif_pos (univ_fin_nonempty hm)]
  exact Finset.sup'_le _ f fun i _ => h i

theorem vec_max_mem {m : ℕ} (hm : 0 < m) (f : Fin m → ℚ) : ∃ i, vec_max f = f i := by
  unfold vec_max
  rw [dif_pos (univ_fin_nonempty hm)]
  obtain ⟨i, _, hi⟩ := Finset.exists_mem_eq_sup' (univ_fin_nonempty hm) f
  exact ⟨i, hi⟩

theorem vec_min_le {m : ℕ} (hm : 0 < m) (f : Fin m → ℚ) (i : Fin m) : vec_min f ≤ f i := by
  unfold vec_min
  rw [dif_pos (univ_fin_nonempty hm)]
  exact Finset.inf'_le f (Finset.mem_univ i)

theorem le_vec_min {m : ℕ} (hm : 0 < m) (f : Fin m → ℚ) (a : ℚ) (h : ∀ i, a ≤ f i) :
    a ≤ vec_min f := by
  unfold vec_min
  rw [dif_pos (univ_fin_nonempty hm)]
  exact Finset.le_inf' _ f fun i _ => h i

theorem vec_min_mem {m : ℕ} (hm : 0 < m) (f : Fin m → ℚ) : ∃ i, vec_min f = f i := by
  unfold vec_min
  rw [dif_pos (univ_fin_nonempty hm)]
  obtain ⟨i, _, hi⟩ := Finset.exists_mem_eq_inf' (univ_fin_nonempty hm) f
  exact ⟨i, hi⟩

/-! ### Claim C6 -/

/-- C6 counterexample: a constant left-eigenvector column.  The spec claims the
rescaled value is then defined as `0` for all rows; the code instead divides
`0 / 0` and its own `assert np.allclose(np.max(V_scaled, axis=0), 1)` fails
(an `AssertionError`, i.e. no value at all — embedded as `none`). -/
def exVconst : Matrix (Fin 2) (Fin 1) ℚ :=
  !![1; 1]

theorem compute_approx_rcs_prob_cex :
    compute_approx_rcs_prob exVconst (fun _ => 1) = none := by
  unfold compute_approx_rcs_prob
  rw [if_neg]
  rintro ⟨-, h2⟩
  have h20 := h2 0
  have hsh : ∀ i : Fin 2, rcs_V_shifted exVconst i 0 = 0 := by
    intro i
    unfold rcs_V_shifted
    have hmin : vec_min (fun i' : Fin 2 => |exVconst i' 0|) = 1 := by
      have h1 : ∀ i' : Fin 2, |exVconst i' 0| = 1 := by
        intro i'
        fin_cases i' <;> norm_num [exVconst]
      unfold vec_min
      rw [dif_pos (univ_fin_nonempty (by norm_num))]
      rw [show (fun i' : Fin 2 => |exVconst i' 0|) = fun _ => (1 : ℚ) from funext h1]
      exact Finset.inf'_const _ _
    rw [hmin]
    fin_cases i <;> norm_num [exVconst]
  have hsc : ∀ i : Fin 2, rcs_V_scaled exVconst i 0 = 0 := by
    intro i
    unfold rcs_V_scaled
    rw [hsh i]
    exact zero_div _
  rw [show (fun i : Fin 2 => rcs_V_scaled exVconst i 0) = fun _ => (0 : ℚ) from
    funext hsc] at h20
  have : vec_max (fun _ : Fin 2 => (0 : ℚ)) = 0 := by
    unfold vec_max
    rw [dif_pos (univ_fin_nonempty (by norm_num))]
    exact Finset.sup'_const _ _
  rw [this] at h20
  norm_num at h20

/-- Helper: definedness and bounds of the recurrence score under nonconstant
columns and positive eigenvalues. -/
theorem rcs_prob_bounds {n k : ℕ} (V : Matrix (Fin n) (Fin k) ℚ)
    (evals : Fin k → ℚ) (hn : 0 < n) (hk : 0 < k)
    (hcol : ∀ c, ∃ i i', ¬ |V i c| = |V i' c|) (heval : ∀ c, 0 < evals c) :
    (compute_approx_rcs_prob V evals).isSome = true ∧
      ∀ i, 0 ≤ (compute_approx_rcs_prob V evals).getD (fun _ => 0) i ∧
        (compute_approx_rcs_prob V evals).getD (fun _ => 0) i ≤ 1 := by
  have hsh0 : ∀ i c, 0 ≤ rcs_V_shifted V i c := by
    intro i c
    unfold rcs_V_shifted
    rw [sub_nonneg]
    exact vec_min_le hn (fun i' => |V i' c|) i
  have hmaxpos : ∀ c, 0 < vec_max (fun i' => rcs_V_shifted V i' c) := by
    intro c
    obtain ⟨i, i', hne⟩ := hcol c
    have hj : ∃ j, ¬ rcs_V_shifted V j c = 0 := by
      by_contra hcon
      push_neg at hcon
      have hvals : ∀ j, |V j c| = vec_min (fun i' => |V i' c|) := by
        intro j
        have := hcon j
        unfold rcs_V_shifted at this
        linarith [this]
      exact hne ((hvals i).trans (hvals i').symm)
    obtain ⟨j, hj⟩ := hj
    have hjpos : 0 < rcs_V_shifted V j c := lt_of_le_of_ne (hsh0 j c) (Ne.symm hj)
    exact lt_of_lt_of_le hjpos (le_vec_max hn _ j)
  have hsc0 : ∀ i c, 0 ≤ rcs_V_scaled V i c := by
    intro i c
    unfold rcs_V_scaled
    exact div_nonneg (hsh0 i c) (le_of_lt (hmaxpos c))
  have hsc1 : ∀ i c, rcs_V_scaled V i c ≤ 1 := by
    intro i c
    unfold rcs_V_scaled
    rw [div_le_one (hmaxpos c)]
    exact le_vec_max hn _ i
  have hscmin : ∀ c, vec_min (fun i => rcs_V_scaled V i c) = 0 := by
    intro c
    obtain ⟨i0, hi0⟩ := vec_min_mem hn (fun i' => |V i' c|)
    have hz : rcs_V_scaled V i0 c = 0 := by
      unfold rcs_V_scaled rcs_V_shifted
      rw [← hi0, sub_self, zero_div]
    exact le_antisymm (hz ▸ vec_min_le hn (fun i => rcs_V_scaled V i c) i0)
      (le_vec_min hn _ 0 fun i => hsc0 i c)
  have hscmax : ∀ c, vec_max (fun i => rcs_V_scaled V i c) = 1 := by
    intro c
    obtain ⟨i1, hi1⟩ := vec_max_mem hn (fun i' => rcs_V_shifted V i' c)
    have ho : rcs_V_scaled V i1 c = 1 := by
      unfold rcs_V_scaled
      rw [← hi1]
      exact div_self (ne_of_gt (hi1 ▸ hmaxpos c))
    exact le_antisymm (vec_max_le hn _ 1 fun i => hsc1 i c)
      (ho ▸ le_vec_max hn (fun i => rcs_V_scaled V i c) i1)
  have hres : compute_approx_rcs_prob V evals =
      some (fun i => rcs_csum V evals i / vec_max (rcs_csum V evals)) := by
    unfold compute_approx_rcs_prob
    rw [if_pos ⟨hscmin, hscmax⟩]
  have hcs0 : ∀ i, 0 ≤ rcs_csum V evals i := by
    intro i
    unfold rcs_csum
    exact Finset.sum_nonneg fun c _ => div_nonneg (hsc0 i c) (le_of_lt (heval c))
  have hMpos : 0 < vec_max (rcs_csum V evals) := by
    set c0 : Fin k := ⟨0, hk⟩
    obtain ⟨i1, hi1⟩ := vec_max_mem hn (fun i' => rcs_V_shifted V i' c0)
    have hone : rcs_V_scaled V i1 c0 = 1 := by
      unfold rcs_V_scaled
      rw [← hi1]
      exact div_self (ne_of_gt (hi1 ▸ hmaxpos c0))
    have hterm : 0 < rcs_V_scaled V i1 c0 / evals c0 := by
      rw [hone]
      exact div_pos one_pos (heval c0)
    have hcs : 0 < rcs_csum V evals i1 := by
      unfold rcs_csum
      exact Finset.sum_pos' (fun c _ => div_nonneg (hsc0 i1 c) (le_of_lt (heval c)))
        ⟨c0, Finset.mem_univ c0, hterm⟩
    exact lt_of_lt_of_le hcs (le_vec_max hn _ i1)
  constructor
  · rw [hres]
    rfl
  · intro i
    rw [hres]
    constructor
    · exact div_nonneg (hcs0 i) (le_of_lt hMpos)
    · rw [Option.getD_some]
      rw [div_le_one hMpos]
      exact le_vec_max hn _ i

/-- C6 (amended): when no selected column of `|V|` is constant (the rescale
divisor is nonzero — the constant-column case raises an `AssertionError`
instead of being defined as `0`, see the counterexample) and every selected
eigenvalue real part is positive, the per-state recurrence score is defined
and lies in `[0, 1]` for every state. -/
theorem compute_approx_rcs_prob_bounds {n k : ℕ} (V : Matrix (Fin n) (Fin k) ℚ)
    (evals : Fin k → ℚ) (hn : 0 < n) (hk : 0 < k)
    (hcol : ∀ c, ∃ i i', ¬ |V i c| = |V i' c|) (heval : ∀ c, 0 < evals c) :
    (compute_approx_rcs_prob V evals).isSome = true ∧
      ∀ i, 0 ≤ (compute_approx_rcs_prob V evals).getD (fun _ => 0) i ∧
        (compute_approx_rcs_prob V evals).getD (fun _ => 0) i ≤ 1 :=
  rcs_prob_bounds V evals hn hk hcol heval

theorem compute_approx_rcs_prob_bounds_witness :
    (compute_approx_rcs_prob exV01 (fun _ => 1)).isSome = true ∧
      (0 ≤ (compute_approx_rcs_prob exV01 (fun _ => 1)).getD (fun _ => 0) 0 ∧
        (compute_approx_rcs_prob exV01 (fun _ => 1)).getD (fun _ => 0) 0 ≤ 1) :=
  ⟨(compute_approx_rcs_prob_bounds exV01 (fun _ => 1) (by decide) (by decide)
      (by decide) (by decide)).1,
    (compute_approx_rcs_prob_bounds exV01 (fun _ => 1) (by decide) (by decide)
      (by decide) (by decide)).2 0⟩

/-! ### Sorted-list lemmas for `np.percentile` -/

theorem sorted_getD_zero_le {l : List ℚ} (hs : l.Sorted (· ≤ ·)) {x : ℚ} (hx : x ∈ l) :
    l.getD 0 0 ≤ x := by
  cases l with
  | nil => exact absurd hx (List.not_mem_nil x)
  | cons hd tl =>
    rw [List.sorted_cons] at hs
    rcases List.mem_cons.mp hx with h | h
    · subst h
      simp [List.getD_cons_zero]
    · simpa [List.getD_cons_zero] using hs.1 x h

theorem getD_last_mem : ∀ (l : List ℚ), l ≠ [] → l.getD (l.length - 1) 0 ∈ l := by
  intro l
  induction l with
  | nil => intro h; exact absurd rfl h
  | cons hd tl ih =>
    intro _
    cases tl with
    | nil => simp [List.getD_cons_zero]
    | cons hd2 tl2 =>
      have h1 : (hd :: hd2 :: tl2).length - 1 = ((hd2 :: tl2).length - 1) + 1 := by
        simp
      rw [h1, List.getD_cons_succ]
      exact List.mem_cons_of_mem hd (ih (by simp))

theorem sorted_le_getD_last : ∀ (l : List ℚ), l.Sorted (· ≤ ·) →
    ∀ x ∈ l, x ≤ l.getD (l.length - 1) 0 := by
  intro l
  induction l with
  | nil => intro _ x hx; exact absurd hx (List.not_mem_nil x)
  | cons hd tl ih =>
    intro hs x hx
    rw [List.sorted_cons] at hs
    cases tl with
    | nil =>
      rcases List.mem_cons.mp hx with h | h
      · subst h
        simp [List.getD_cons_zero]
      · exact absurd h (List.not_mem_nil x)
    | cons hd2 tl2 =>
      have h1 : (hd :: hd2 :: tl2).length - 1 = ((hd2 :: tl2).length - 1) + 1 := by
        simp
      rw [h1, List.getD_cons_succ]
      rcases List.mem_cons.mp hx with h | h
      · subst h
        exact hs.1 _ (getD_last_mem _ (by simp))
      · exact ih hs.2 x h

/-- Evaluation of `np.percentile` at `p = 0`: the head of the sorted data. -/
theorem np_percentile_zero (xs : List ℚ) :
    np_percentile xs 0 = (np_sorted xs).getD 0 0 := by
  unfold np_percentile np_ph
  norm_num

/-- Evaluation of `np.percentile` at `p = 100`: the last element of the sorted data. -/
theorem np_percentile_hundred (xs : List ℚ) (hne : xs ≠ []) :
    np_percentile xs 100 = (np_sorted xs).getD (xs.length - 1) 0 := by
  have hlen : 1 ≤ xs.length := List.length_pos.mpr hne
  have hh : np_ph xs 100 = ((xs.length - 1 : ℕ) : ℚ) := by
    unfold np_ph
    rw [Nat.cast_sub hlen]
    push_cast
    ring
  unfold np_percentile
  rw [hh, Int.floor_natCast, Int.toNat_natCast]
  push_cast
  rw [sub_self, zero_mul, add_zero]

theorem np_percentile_zero_le (xs : List ℚ) {x : ℚ} (hx : x ∈ xs) :
    np_percentile xs 0 ≤ x := by
  rw [np_percentile_zero]
  have hsx : x ∈ np_sorted xs := by
    unfold np_sorted
    exact (List.perm_insertionSort _ _).mem_iff.mpr hx
  exact sorted_getD_zero_le (List.sorted_insertionSort _ _) hsx

theorem le_np_percentile_hundred (xs : List ℚ) {x : ℚ} (hx : x ∈ xs) :
    x ≤ np_percentile xs 100 := by
  have hne : xs ≠ [] := List.ne_nil_of_mem hx
  rw [np_percentile_hundred xs hne]
  have hsx : x ∈ np_sorted xs := by
    unfold np_sorted
    exact (List.perm_insertionSort _ _).mem_iff.mpr hx
  have hlen : (np_sorted xs).length = xs.length := by
    unfold np_sorted
    exact (List.perm_insertionSort _ _).length_eq
  rw [← hlen]
  exact sorted_le_getD_last _ (List.sorted_insertionSort _ _) x hsx

theorem np_percentile_hundred_mem (xs : List ℚ) (hne : xs ≠ []) :
    np_percentile xs 100 ∈ xs := by
  rw [np_percentile_hundred xs hne]
  have hlen : (np_sorted xs).length = xs.length := by
    unfold np_sorted
    exact (List.perm_insertionSort _ _).length_eq
  have hne' : np_sorted xs ≠ [] := by
    intro hcon
    rw [hcon] at hlen
    exact hne (List.length_eq_zero.mp hlen.symm)
  have := getD_last_mem (np_sorted xs) hne'
  rw [hlen] at this
  unfold np_sorted at this
  exact (List.perm_insertionSort _ _).mem_iff.mp this

/-! ### The keep/drop semantics of the percentile filter -/

/-- A state is kept iff it is at or above the cutoff in at least one column. -/
theorem keep_mask_iff {n k : ℕ} (V : Matrix (Fin n) (Fin k) ℚ) (p : ℚ) (i : Fin n) :
    keep_mask V p i = true ↔ ∃ c, percentile_cutoffs V p c ≤ |V i c| := by
  unfold keep_mask
  rw [decide_eq_true_eq]
  constructor
  · intro hcard
    by_contra hcon
    push_neg at hcon
    have hall : Finset.univ.filter (fun c => |V i c| < percentile_cutoffs V p c) =
        Finset.univ :=
      Finset.filter_eq_self.mpr fun c _ => hcon c
    rw [hall, Finset.card_univ, Fintype.card_fin] at hcard
    exact lt_irrefl k hcard
  · rintro ⟨c, hc⟩
    have hle : (Finset.univ.filter
        (fun c => |V i c| < percentile_cutoffs V p c)).card ≤ k := by
      have := Finset.card_filter_le Finset.univ
        (fun c => |V i c| < percentile_cutoffs V p c)
      rwa [Finset.card_univ, Fintype.card_fin] at this
    rcases lt_or_eq_of_le hle with h | h
    · exact h
    · exfalso
      have huniv : Finset.univ.filter
          (fun c => |V i c| < percentile_cutoffs V p c) = Finset.univ := by
        apply Finset.eq_univ_of_card
        rw [h, Fintype.card_fin]
      have : |V i c| < percentile_cutoffs V p c := by
        have hmem : c ∈ Finset.univ.filter
            (fun c => |V i c| < percentile_cutoffs V p c) := by
          rw [huniv]
          exact Finset.mem_univ c
        exact (Finset.mem_filter.mp hmem).2
      exact absurd hc (not_le.mpr this)

/-! ### Claim C7 -/

/-- C7: for every percentile in `(0, 100)`, the filter keeps a state iff its
absolute eigenvector value is at or above the per-column percentile cutoff in
at least one selected column (equivalently: it is dropped exactly when it is
below the cutoff in every column). -/
theorem percentile_filter_keep_iff {n k : ℕ} (V : Matrix (Fin n) (Fin k) ℚ) (p : ℚ)
    (_hp : 0 < p ∧ p < 100) (i : Fin n) :
    keep_mask V p i = true ↔ ∃ c, percentile_cutoffs V p c ≤ |V i c| :=
  keep_mask_iff V p i

theorem percentile_filter_keep_iff_witness :
    keep_mask exV01 50 0 = true ↔ ∃ c, percentile_cutoffs exV01 50 c ≤ |exV01 0 c| :=
  percentile_filter_keep_iff exV01 50 (by decide) 0


/-! ### Step-function lemmas shared by the session-state claims -/

/-- On solve failure, `compute_lin_probs` leaves the placeholder it committed
to `self._lin_probs` before solving. -/
theorem lin_solve_failure_commits {n L : ℕ} (T : Matrix (Fin n) (Fin n) ℚ) (nbf : Bool)
    (st : LinState n L) (labels : Fin n → Option (Fin L))
    (hl : st.approx_rcs = some labels) (hfail : compute_lin_probs T labels nbf = none) :
    compute_lin_probs_step T nbf st =
      (some .linAlgError, {st with lin_probs := some (lin_probs_placeholder L)}) := by
  simp only [compute_lin_probs_step, hl, hfail]

/-- On an out-of-range percentile, `compute_approx_rcs` raises after having
committed the freshly computed recurrence probabilities. -/
theorem approx_rcs_percentile_commits {n : ℕ} (method : String) (use0 : Option ℕ)
    (p : ℚ) (cluster : Fin n → ℕ) (st : MCState n) (e : EigData n)
    (he : st.eig = some e) (hmethod : method = "kmeans" ∨ method = "louvain")
    (h : 0 < rcs_use e use0 ∧ rcs_use e use0 ≤ e.k) (probs : Fin n → ℚ)
    (hprobs : compute_approx_rcs_prob (rcs_V_use e use0 h.2) (rcs_D_use e use0 h.2)
      = some probs)
    (hp : p < 0 ∨ 100 < p) :
    compute_approx_rcs method use0 (some p) cluster st =
      (some .invalidPercentile, {st with approx_rcs_probs := some probs}) := by
  simp only [compute_approx_rcs, he, if_neg (not_not_intro hmethod), dif_pos h,
    hprobs, if_pos hp]

/-- On an in-range percentile, `compute_approx_rcs` succeeds and commits both
the recurrence probabilities and the filtered/clustered labeling. -/
theorem approx_rcs_success_shape {n : ℕ} (method : String) (use0 : Option ℕ)
    (p : ℚ) (cluster : Fin n → ℕ) (st : MCState n) (e : EigData n)
    (he : st.eig = some e) (hmethod : method = "kmeans" ∨ method = "louvain")
    (h : 0 < rcs_use e use0 ∧ rcs_use e use0 ≤ e.k) (probs : Fin n → ℚ)
    (hprobs : compute_approx_rcs_prob (rcs_V_use e use0 h.2) (rcs_D_use e use0 h.2)
      = some probs)
    (hp : ¬ (p < 0 ∨ 100 < p)) :
    compute_approx_rcs method use0 (some p) cluster st =
      (none,
        { st with
          approx_rcs_probs := some probs
          approx_rcs := some (fun i =>
            if keep_mask (rcs_V_use e use0 h.2) p i then some (cluster i) else none) }) := by
  simp only [compute_approx_rcs, he, if_neg (not_not_intro hmethod), dif_pos h,
    hprobs, if_neg hp]

/-- The example eigendecomposition admits one leading eigenvector. -/
theorem exEig_use_valid : 0 < rcs_use exEig (some 1) ∧ rcs_use exEig (some 1) ≤ exEig.k := by
  decide

/-- The recurrence score of the example eigendecomposition is defined. -/
theorem exEig_prob_isSome :
    (compute_approx_rcs_prob (rcs_V_use exEig (some 1) exEig_use_valid.2)
      (rcs_D_use exEig (some 1) exEig_use_valid.2)).isSome = true := by
  refine (rcs_prob_bounds _ _ (by decide) (by decide) ?_ ?_).1
  · intro c
    refine ⟨0, 1, ?_⟩
    rcases c with ⟨cv, hcv⟩
    have hcv0 : cv = 0 := Nat.lt_one_iff.mp hcv
    subst hcv0
    show ¬ |exV01 0 0| = |exV01 1 0|
    norm_num [exV01]
  · intro c
    show (0 : ℚ) < 1
    norm_num

/-! ### Claim C3 -/

/-- C3 counterexample: `compute_approx_rcs` called with `percentile = 101` on
a session holding only an eigendecomposition raises `ValueError` — but the
returned session now carries recurrence probabilities that were absent
before the call, refuting "no session-derived state differs from its value
before the call". -/
theorem operations_not_atomic_cex :
    (compute_approx_rcs "kmeans" (some 1) (some 101) (fun _ => 0) exStRcs).1 =
      some .invalidPercentile ∧
    (compute_approx_rcs "kmeans" (some 1) (some 101)
      (fun _ => 0) exStRcs).2.approx_rcs_probs.isSome = true ∧
    exStRcs.approx_rcs_probs.isSome = false := by
  obtain ⟨probs, hp⟩ := Option.isSome_iff_exists.mp exEig_prob_isSome
  have hstep := approx_rcs_percentile_commits "kmeans" (some 1) 101 (fun _ => 0)
    exStRcs exEig rfl (Or.inl rfl) exEig_use_valid probs hp (by norm_num)
  refine ⟨by rw [hstep], ?_, rfl⟩
  rw [hstep]
  rfl


/-- C3 (amended): the operations are not atomic.  Entry precondition errors
are raised before any mutation, but a failure later in an operation leaves
its early commits behind: a solve failure in `compute_lin_probs` leaves the
`1 × L` placeholder written over the stored lineage probabilities, and the
percentile `ValueError` of `compute_approx_rcs` leaves the freshly committed
recurrence probabilities. -/
theorem operations_not_atomic {n L : ℕ} :
    (∀ (T : Matrix (Fin n) (Fin n) ℚ) (nbf : Bool) (st : LinState n L)
      (labels : Fin n → Option (Fin L)),
      st.approx_rcs = some labels → compute_lin_probs T labels nbf = none →
      compute_lin_probs_step T nbf st =
        (some .linAlgError, {st with lin_probs := some (lin_probs_placeholder L)})) ∧
    (∀ (method : String) (use0 : Option ℕ) (p : ℚ) (cluster : Fin n → ℕ)
      (st : MCState n) (e : EigData n), st.eig = some e →
      (method = "kmeans" ∨ method = "louvain") →
      ∀ (h : 0 < rcs_use e use0 ∧ rcs_use e use0 ≤ e.k) (probs : Fin n → ℚ),
      compute_approx_rcs_prob (rcs_V_use e use0 h.2) (rcs_D_use e use0 h.2) = some probs →
      (p < 0 ∨ 100 < p) →
      compute_approx_rcs method use0 (some p) cluster st =
        (some .invalidPercentile, {st with approx_rcs_probs := some probs})) :=
  ⟨fun T nbf st labels hl hfail => lin_solve_failure_commits T nbf st labels hl hfail,
   fun method use0 p cluster st e he hm h probs hprobs hp =>
     approx_rcs_percentile_commits method use0 p cluster st e he hm h probs hprobs hp⟩

theorem operations_not_atomic_witness :
    compute_lin_probs_step exT2 false exStLinFail =
      (some .linAlgError, {exStLinFail with lin_probs := some (lin_probs_placeholder 1)}) ∧
    compute_approx_rcs "kmeans" (some 1) (some 101) (fun _ => 0) exStRcs =
      (some .invalidPercentile,
        { exStRcs with
          approx_rcs_probs := some
            ((compute_approx_rcs_prob (rcs_V_use exEig (some 1) exEig_use_valid.2)
              (rcs_D_use exEig (some 1) exEig_use_valid.2)).get exEig_prob_isSome) }) :=
  ⟨(operations_not_atomic (n := 2) (L := 1)).1 exT2 false exStLinFail exLabels1 rfl
      compute_lin_probs_exLabels1_none,
   (operations_not_atomic (n := 2) (L := 1)).2 "kmeans" (some 1) 101 (fun _ => 0)
      exStRcs exEig rfl (Or.inl rfl) exEig_use_valid _
      (Option.some_get exEig_prob_isSome).symm (by decide)⟩

/-! ### Claim C9 -/

/-- C9: `compute_lin_probs` raises the error naming its missing predecessor
("compute approximate recurrent classes first") whenever the labeling has not
been set, and `compute_approx_rcs` raises the error naming the missing
eigendecomposition; in both cases the error is raised with the session state
unchanged (before any computation). -/
theorem precondition_errors {n n2 L : ℕ} (T : Matrix (Fin n) (Fin n) ℚ) (nbf : Bool)
    (stl : LinState n L) (hl : stl.approx_rcs = none)
    (method : String) (use0 : Option ℕ) (percentile : Option ℚ)
    (cluster : Fin n2 → ℕ) (st : MCState n2) (he : st.eig = none) :
    compute_lin_probs_step T nbf stl = (some .precondApproxRcs, stl) ∧
      error_message .precondApproxRcs =
        "Compute approximate recurrent classes first as `.compute_approx_rcs()`" ∧
      compute_approx_rcs method use0 percentile cluster st = (some .precondEig, st) ∧
      error_message .precondEig = "Compute eigendecomposition first as `.compute_eig()`" := by
  refine ⟨?_, rfl, ?_, rfl⟩
  · unfold compute_lin_probs_step
    rw [hl]
  · unfold compute_approx_rcs
    rw [he]

theorem precondition_errors_witness :
    compute_lin_probs_step exT2 false exStLinNoRcs = (some .precondApproxRcs, exStLinNoRcs) ∧
      error_message .precondApproxRcs =
        "Compute approximate recurrent classes first as `.compute_approx_rcs()`" ∧
      compute_approx_rcs "kmeans" none none (fun _ => 0) exStRcsNoEig =
        (some .precondEig, exStRcsNoEig) ∧
      error_message .precondEig = "Compute eigendecomposition first as `.compute_eig()`" :=
  precondition_errors exT2 false exStLinNoRcs rfl "kmeans" none none
    (fun _ => 0) exStRcsNoEig rfl

/-! ### Claim C10 -/

/-- C10: when the partition yields exactly one recurrent class and no
transient classes (the irreducible case), `compute_partition` sets only the
irreducible flag and leaves the `recurrent_classes` / `transient_classes`
fields unchanged (they remain `None` if never previously computed); the
class fields are populated exactly when the chain is reducible. -/
theorem compute_partition_frame {n : ℕ} (pr : List (List (Fin n)) × List (List (Fin n)))
    (st : MCState n) :
    (pr.1.length = 1 ∧ pr.2.length = 0 →
      compute_partition pr st = {st with is_irreducible := some true}) ∧
    (¬ (pr.1.length = 1 ∧ pr.2.length = 0) →
      compute_partition pr st =
        { st with
          is_irreducible := some false
          rec_classes := some pr.1
          trans_classes := some pr.2 }) := by
  constructor
  · intro h
    unfold compute_partition
    rw [if_pos h]
  · intro h
    unfold compute_partition
    rw [if_neg h]

theorem compute_partition_frame_witness :
    compute_partition exPartIrr exStPart = {exStPart with is_irreducible := some true} :=
  (compute_partition_frame exPartIrr exStPart).1 (by decide)


/-! ### Boundary behavior of the percentile filter -/

/-- At `percentile = 0` the cutoff is the column minimum, so every state is
kept. -/
theorem keep_mask_zero {n k : ℕ} (hk : 0 < k) (V : Matrix (Fin n) (Fin k) ℚ)
    (i : Fin n) : keep_mask V 0 i = true := by
  rw [keep_mask_iff]
  refine ⟨⟨0, hk⟩, ?_⟩
  unfold percentile_cutoffs
  exact np_percentile_zero_le _ (List.mem_map.mpr ⟨i, List.mem_finRange i, rfl⟩)

/-- At `percentile = 100` the cutoff is the column maximum, so a state is kept
iff it attains the maximal absolute value in at least one column. -/
theorem keep_mask_hundred_iff {n k : ℕ} (V : Matrix (Fin n) (Fin k) ℚ) (i : Fin n) :
    keep_mask V 100 i = true ↔ ∃ c, ∀ i', |V i' c| ≤ |V i c| := by
  rw [keep_mask_iff]
  constructor
  · rintro ⟨c, hc⟩
    refine ⟨c, fun i' => ?_⟩
    refine le_trans ?_ hc
    unfold percentile_cutoffs
    exact le_np_percentile_hundred _ (List.mem_map.mpr ⟨i', List.mem_finRange i', rfl⟩)
  · rintro ⟨c, hc⟩
    refine ⟨c, ?_⟩
    unfold percentile_cutoffs
    have hne : ((List.finRange n).map fun i' => |V i' c|) ≠ [] := by
      intro hcontra
      have hmem : |V i c| ∈ (List.finRange n).map fun i' => |V i' c| :=
        List.mem_map.mpr ⟨i, List.mem_finRange i, rfl⟩
      rw [hcontra] at hmem
      exact absurd hmem (List.not_mem_nil _)
    have hmem := np_percentile_hundred_mem ((List.finRange n).map fun i' => |V i' c|) hne
    rcases List.mem_map.mp hmem with ⟨i', _, hi'⟩
    rw [← hi']
    exact hc i'

/-- At `percentile = 100` at least one state (a column argmax) is kept. -/
theorem keep_mask_hundred_exists {n k : ℕ} (hn : 0 < n) (hk : 0 < k)
    (V : Matrix (Fin n) (Fin k) ℚ) : ∃ i, keep_mask V 100 i = true := by
  obtain ⟨i1, hi1⟩ := vec_max_mem hn (fun i' => |V i' ⟨0, hk⟩|)
  refine ⟨i1, (keep_mask_hundred_iff V i1).mpr ⟨⟨0, hk⟩, fun i' => ?_⟩⟩
  rw [← hi1]
  exact le_vec_max hn _ i'

/-! ### Claim C4 -/

/-- C4 counterexample: at `percentile = 100` the resulting labeling is *not*
all-null: with the single eigenvector column `(0, 1)` the cutoff is the
column maximum `1` and state `1` attains it, so state `1` is kept and gets a
cluster label.  (The filter keeps a state unless it is *strictly below* the
cutoff in every column, and the maximum itself is never strictly below.) -/
theorem percentile_hundred_cex :
    (compute_approx_rcs "kmeans" (some 1) (some 100) (fun _ => 0) exStRcs).1 = none ∧
    (compute_approx_rcs "kmeans" (some 1) (some 100)
      (fun _ => 0) exStRcs).2.approx_rcs.map (fun f => f 1) = some (some 0) := by
  obtain ⟨probs, hp⟩ := Option.isSome_iff_exists.mp exEig_prob_isSome
  have hstep := approx_rcs_success_shape "kmeans" (some 1) 100 (fun _ => 0)
    exStRcs exEig rfl (Or.inl rfl) exEig_use_valid probs hp (by norm_num)
  refine ⟨by rw [hstep], ?_⟩
  rw [hstep]
  simp only [Option.map_some']
  have hkeep : keep_mask (rcs_V_use exEig (some 1) exEig_use_valid.2) 100 1 = true := by
    rw [keep_mask_hundred_iff]
    refine ⟨⟨0, exEig_use_valid.1⟩, fun i' => ?_⟩
    have h1 : rcs_V_use exEig (some 1) exEig_use_valid.2 1 ⟨0, exEig_use_valid.1⟩ = 1 := by
      show exV01 1 0 = 1
      norm_num [exV01]
    rw [h1]
    fin_cases i' <;>
      · show |exV01 _ 0| ≤ |(1 : ℚ)|
        norm_num [exV01]
  rw [if_pos hkeep]

/-- C4 (amended): with an eigendecomposition present, a valid eigenvector
selection, and a defined recurrence score, neither boundary percentile raises
an error; `percentile = 0` keeps every state, while `percentile = 100` keeps
exactly the states attaining the per-column maximum absolute eigenvector
value in at least one selected column — in particular at least one state, so
the resulting labeling is *not* all-null (the original "retains none" fails,
see the counterexample). -/
theorem percentile_boundary {n : ℕ} (st : MCState n) (e : EigData n)
    (cluster : Fin n → ℕ) (use0 : Option ℕ) (he : st.eig = some e) (hn : 0 < n)
    (h : 0 < rcs_use e use0 ∧ rcs_use e use0 ≤ e.k)
    (hprob : (compute_approx_rcs_prob (rcs_V_use e use0 h.2)
      (rcs_D_use e use0 h.2)).isSome = true) :
    (compute_approx_rcs "kmeans" use0 (some 0) cluster st).1 = none ∧
    (∀ i, keep_mask (rcs_V_use e use0 h.2) 0 i = true) ∧
    (compute_approx_rcs "kmeans" use0 (some 100) cluster st).1 = none ∧
    (∀ i, keep_mask (rcs_V_use e use0 h.2) 100 i = true ↔
      ∃ c, ∀ i', |rcs_V_use e use0 h.2 i' c| ≤ |rcs_V_use e use0 h.2 i c|) ∧
    (∃ i, keep_mask (rcs_V_use e use0 h.2) 100 i = true) := by
  obtain ⟨probs, hp⟩ := Option.isSome_iff_exists.mp hprob
  have h0 := approx_rcs_success_shape "kmeans" use0 0 cluster st e he
    (Or.inl rfl) h probs hp (by norm_num)
  have h100 := approx_rcs_success_shape "kmeans" use0 100 cluster st e he
    (Or.inl rfl) h probs hp (by norm_num)
  exact ⟨by rw [h0], fun i => keep_mask_zero h.1 _ i, by rw [h100],
    fun i => keep_mask_hundred_iff _ i, keep_mask_hundred_exists hn h.1 _⟩

theorem percentile_boundary_witness :
    (compute_approx_rcs "kmeans" (some 1) (some 0) (fun _ => 0) exStRcs).1 = none ∧
    keep_mask (rcs_V_use exEig (some 1) exEig_use_valid.2) 0 0 = true ∧
    (compute_approx_rcs "kmeans" (some 1) (some 100) (fun _ => 0) exStRcs).1 = none ∧
    (keep_mask (rcs_V_use exEig (some 1) exEig_use_valid.2) 100 1 = true ↔
      ∃ c, ∀ i', |rcs_V_use exEig (some 1) exEig_use_valid.2 i' c| ≤
        |rcs_V_use exEig (some 1) exEig_use_valid.2 1 c|) ∧
    (∃ i, keep_mask (rcs_V_use exEig (some 1) exEig_use_valid.2) 100 i = true) :=
  ⟨(percentile_boundary exStRcs exEig (fun _ => 0) (some 1) rfl (by decide)
      exEig_use_valid exEig_prob_isSome).1,
   (percentile_boundary exStRcs exEig (fun _ => 0) (some 1) rfl (by decide)
      exEig_use_valid exEig_prob_isSome).2.1 0,
   (percentile_boundary exStRcs exEig (fun _ => 0) (some 1) rfl (by decide)
      exEig_use_valid exEig_prob_isSome).2.2.1,
   (percentile_boundary exStRcs exEig (fun _ => 0) (some 1) rfl (by decide)
      exEig_use_valid exEig_prob_isSome).2.2.2.1 1,
   (percentile_boundary exStRcs exEig (fun _ => 0) (some 1) rfl (by decide)
      exEig_use_valid exEig_prob_isSome).2.2.2.2⟩

/-! ### Claim C5 -/

/-- C5: `plot_lin_probs` is not read-only.  On a stored single-column matrix
`(1, 2)` (state `0` has probability `1`, state `1` has `2`), the color
rescaling writes through the alias `A = self._lin_probs.X`: the stored entry
at `(0, 0)` silently changes from `1` to `2` although the call reports no
error — the stored lineage probabilities after plotting differ from before,
contradicting "read-only/diagnostic operations leave the stored values
unchanged". -/
theorem plot_lin_probs_mutates :
    (plot_lin_probs_step exStLin).1 = none ∧
    (plot_lin_probs_step exStLin).2.lin_probs ≠ exStLin.lin_probs := by
  constructor
  · rfl
  · intro hcon
    have h1 : plot_scale_column 2 exLinEntries 0 0 = 2 := by
      unfold plot_scale_column
      have hmem : (1 : ℕ) ∈ (Finset.range 2).filter fun i' => ¬ exLinEntries i' 0 = 1 := by
        rw [Finset.mem_filter]
        refine ⟨by norm_num, ?_⟩
        norm_num [exLinEntries]
      have hcond : exLinEntries 0 0 = 1 ∧
          ((Finset.range 2).filter fun i' => ¬ exLinEntries i' 0 = 1).Nonempty := by
        refine ⟨by norm_num [exLinEntries], ⟨1, hmem⟩⟩
      rw [dif_pos hcond]
      have hset : ((Finset.range 2).filter fun i' => ¬ exLinEntries i' 0 = 1) = {1} := by
        apply Finset.ext
        intro a
        rw [Finset.mem_filter, Finset.mem_singleton, Finset.mem_range]
        constructor
        · rintro ⟨ha2, hane⟩
          interval_cases a
          · exact absurd (by norm_num [exLinEntries] : exLinEntries 0 0 = 1) hane
          · rfl
        · rintro rfl
          exact ⟨by norm_num, by norm_num [exLinEntries]⟩
      rw [Finset.sup'_congr hcond.2 hset (fun a _ => rfl)]
      rw [Finset.sup'_singleton]
      norm_num [exLinEntries]
    have h2 : (plot_lin_probs_step exStLin).2.lin_probs.map (fun t => t.2.2 0 0) =
        some (plot_scale_column 2 exLinEntries 0 0) := rfl
    have h3 : exStLin.lin_probs.map (fun t => t.2.2 0 0) = some 1 := rfl
    rw [hcon, h3, h1] at h2
    have := Option.some.inj h2
    norm_num at this

end CellRank
